import Mathlib

/-!
Shallow embedding of `tfidf_doc_ranker.py` (class `TfidfDocRanker`), the query-time
TF-IDF ranking engine: query vectorization (`text2spvec`), top-k search
(`closest_docs`), targeted subset scoring (`doc_scores`), metadata lookup
(`doc_meta`) and the thread-pool batch wrappers.

Modelling conventions:
* numpy/scipy floating point arithmetic is modelled over `ℚ`; `np.log` (and
  `np.log1p x`, i.e. `log (1 + x)`) is an abstract parameter `lg : ℚ → ℚ` of the
  ranker, so every theorem holds for any logarithm.
* a 1×n scipy CSR row is modelled by its list of stored entries `List (ℕ × ℚ)`,
  kept with sorted, duplicate-free column indices; scipy keeps stored entries
  whose value happens to be `0`, and so does the model.
* Python dict indexing failures (`KeyError`) and sparse fancy-indexing failures
  (`IndexError`) are modelled with an `Except` error type, as is the
  `RuntimeError` raised on empty queries under `strict`.
* the external collaborators that are not part of this file's source
  (`utils.normalize`, `SimpleTokenizer`/`ngrams` composed in `parse`,
  `utils.hash`) are abstract function parameters of the ranker, per their
  spec contract (deterministic, and the hash has range `[0, hash_size)`).
-/

namespace CovidAsk

/-- A stored sparse 1×n row: (column index, value) pairs, sorted by index. -/
abbrev SpRow := List (ℕ × ℚ)

/-- One meta source `doc_dict[3][m]`: a pair of dicts keyed by the raw query
string, `pos` holding document positions and `boost` the matching boost values. -/
structure MetaSrc where
  pos : String → Option (List ℕ)
  boost : String → Option (List ℚ)

/-- The `doc_dict` bundle. The Python value is a tuple of length 2, 3 or 4:
`metaMap` is present iff the length is ≥ 3, `metaSources` iff it is 4. -/
structure DocDict where
  idToIdx : List (String × ℕ)
  idxToId : ℕ → String
  metaMap : Option (String → Option (List (String × String)))
  metaSources : Option (String → Option MetaSrc)

/-- The loaded `TfidfDocRanker` state. `docMat` is the list of stored entries
`(term, doc, value)` of the `hash_size × matCols` term-document CSR matrix. -/
structure Ranker where
  hashSize : ℕ
  strict : Bool
  docFreqs : ℕ → ℚ
  lg : ℚ → ℚ
  normalize : String → String
  parse : String → List String
  hashF : String → ℕ
  docMat : List (ℕ × ℕ × ℚ)
  matCols : ℕ
  docDict : DocDict

/-- `self.num_docs = len(self.doc_dict[0])`. -/
def Ranker.numDocs (R : Ranker) : ℕ := R.docDict.idToIdx.length

/-- Query-time failures: the strict-mode `RuntimeError` on empty queries, Python
dict `KeyError`s from the meta-boost block, and scipy index-range errors. -/
inductive RankErr where
  | emptyQuery (q : String)
  | keyError (k : String)
  | indexError
deriving DecidableEq

/-- Hashed n-gram ids of a query:
`words = self.parse(utils.normalize(query)); wids = [utils.hash(w, self.hash_size) for w in words]`. -/
def Ranker.wids (R : Ranker) (q : String) : List ℕ :=
  (R.parse (R.normalize q)).map R.hashF

/-- `np.unique(wids, return_counts=True)`: sorted unique values with counts. -/
def uniqueCounts (l : List ℕ) : List (ℕ × ℕ) :=
  (List.insertionSort (· ≤ ·) l.dedup).map fun w => (w, l.count w)

/-- The idf factor the vectorizer uses for bucket `t`:
`idfs = np.log((num_docs - Ns + 0.5) / (Ns + 0.5)); idfs[idfs < 0] = 0`. -/
def idfOf (R : Ranker) (t : ℕ) : ℚ :=
  if R.lg (((R.numDocs : ℚ) - R.docFreqs t + 1/2) / (R.docFreqs t + 1/2)) < 0 then 0
  else R.lg (((R.numDocs : ℚ) - R.docFreqs t + 1/2) / (R.docFreqs t + 1/2))

/-- The weight stored for bucket `t` with raw count `c`:
`data = np.multiply(tfs, idfs)` with `tfs = np.log1p(wids_counts)`. -/
def tfidfWeight (R : Ranker) (t : ℕ) (c : ℕ) : ℚ :=
  R.lg (1 + (c : ℚ)) * idfOf R t

/-- `text2spvec` (default `val_idx=False` path, the only one this file uses):
empty hashed-ngram lists raise under `strict` and yield the all-zero row
otherwise; else the row stores `tf*idf` at each sorted unique bucket. -/
def text2spvec (R : Ranker) (q : String) : Except RankErr SpRow :=
  let ws := R.wids q
  if ws.isEmpty then
    if R.strict then .error (.emptyQuery q) else .ok []
  else
    .ok ((uniqueCounts ws).map fun wc => (wc.1, tfidfWeight R wc.1 wc.2))

/-- The warning-level log lines `text2spvec` emits (`logger.warning` fires
exactly on the non-strict empty-query branch). -/
def text2spvecWarnings (R : Ranker) (q : String) : List String :=
  if (R.wids q).isEmpty then
    if R.strict then [] else ["No valid word in: " ++ q]
  else []

/-- Stored value of the term-document matrix at `(t, d)`; `0` where nothing is
stored. -/
def matVal (M : List (ℕ × ℕ × ℚ)) (t d : ℕ) : ℚ :=
  ((M.filter fun e => e.1 == t && e.2.1 == d).map fun e => e.2.2).sum

/-- Mathematical dot product of the query row with document column `d`. -/
def dotCol (v : SpRow) (M : List (ℕ × ℕ × ℚ)) (d : ℕ) : ℚ :=
  (v.map fun tx => tx.2 * matVal M tx.1 d).sum

/-- Documents structurally hit by `spvec * self.doc_mat`: some stored matrix
entry sits in a stored column of the query row. scipy's sparse product keeps
such entries even when the accumulated value is `0`. -/
def hitDocs (v : SpRow) (M : List (ℕ × ℕ × ℚ)) : List ℕ :=
  List.insertionSort (· ≤ ·)
    ((M.filter fun e => (v.map Prod.fst).contains e.1).map fun e => e.2.1).dedup

/-- `res = spvec * self.doc_mat` as a stored sparse row. -/
def spMul (v : SpRow) (M : List (ℕ × ℕ × ℚ)) : SpRow :=
  (hitDocs v M).map fun d => (d, dotCol v M d)

/-- Value of a stored row at column `d` (`0` when absent). -/
def valAt (v : SpRow) (d : ℕ) : ℚ :=
  ((v.filter fun e => e.1 == d).map Prod.snd).sum

/-- One iteration of the meta-boost loop body for source name `m`:
`if query in self.doc_dict[3][m][0]:
   res[0, self.doc_dict[3][m][0][query]] += np.array(self.doc_dict[3][m][1][query]) * meta_scale`.
A source name absent from the table is a `KeyError` (Python dict indexing), as
is a `pos` entry without a matching `boost` entry; positions outside the row's
shape are an `IndexError`. Sparse fancy assignment reads the row once and then
writes, so a column listed twice receives only its last boost, and assigned
columns become stored entries of the row even when the written value is `0`.
Well-formed tables pair each position with one boost value (equal lengths);
theorems that need the written values assume this. -/
def boostStep (tbl : String → Option MetaSrc) (q : String) (scale : ℚ) (cols : ℕ)
    (res : SpRow) (m : String) : Except RankErr SpRow :=
  match tbl m with
  | none => .error (.keyError m)
  | some src =>
    match src.pos q with
    | none => .ok res
    | some ps =>
      match src.boost q with
      | none => .error (.keyError q)
      | some bs =>
        if ps.all (· < cols) then
          .ok ((List.insertionSort (· ≤ ·) ((res.map Prod.fst) ++ ps).dedup).map
            fun d =>
              (d, match (ps.zip (bs.map (· * scale))).reverse.find? (fun pb => pb.1 == d) with
                  | some pb => valAt res d + pb.2
                  | none => valAt res d))
        else .error .indexError

/-- The meta-boost block shared by `closest_docs` and `doc_scores`: it runs only
when `len(self.doc_dict) == 4`, and loops over the requested source names. -/
def applyBoosts (R : Ranker) (meta : List String) (q : String) (scale : ℚ)
    (res : SpRow) : Except RankErr SpRow :=
  match R.docDict.metaSources with
  | none => .ok res
  | some tbl => meta.foldlM (boostStep tbl q scale R.matCols) res

/-- Descending-score order on stored pairs. -/
def scoreGe (a b : ℕ × ℚ) : Prop := b.2 ≤ a.2

instance : DecidableRel scoreGe := fun a b => inferInstanceAs (Decidable (b.2 ≤ a.2))

instance : IsTotal (ℕ × ℚ) scoreGe := ⟨fun a b => le_total b.2 a.2⟩

instance : IsTrans (ℕ × ℚ) scoreGe := ⟨fun _ _ _ h h' => le_trans h' h⟩

/-- Descending order on scores. -/
def geQ (a b : ℚ) : Prop := b ≤ a

instance : DecidableRel geQ := fun a b => inferInstanceAs (Decidable (b ≤ a))

instance : IsTotal ℚ geQ := ⟨fun a b => le_total b a⟩

instance : IsTrans ℚ geQ := ⟨fun _ _ _ h h' => le_trans h' h⟩

instance : IsAntisymm ℚ geQ := ⟨fun _ _ h h' => le_antisymm h' h⟩

/-- Sort stored pairs by descending score — `np.argsort(-data)` applied to the
row. The source's tie order among equal scores is unspecified; this is one
refinement of it, and no theorem below depends on the tie order. -/
def sortByScore (l : SpRow) : SpRow := List.insertionSort scoreGe l

/-- Top-k phase of `closest_docs`. `part data k` stands for
`np.argpartition(-data, k)`: some permutation of the row's positions whose
first `k` entries carry the `k` largest scores (hypotheses of the theorems
below state exactly that contract). When the row has at most `k` stored
entries the code sorts all of them instead. -/
def topK (res : SpRow) (part : List ℚ → ℕ → List ℕ) (k : ℕ) : SpRow :=
  if res.length ≤ k then sortByScore res
  else sortByScore (((part (res.map Prod.snd) k).take k).filterMap fun i => res.get? i)

/-- Spec-side description of top-k selection, written from the spec's words:
fully sort all stored candidates descending and keep the first `k`. -/
def specTopK (res : SpRow) (k : ℕ) : SpRow := (sortByScore res).take k

/-- `closest_docs(query, meta, meta_scale, k)`: vectorize, score against the
matrix, boost, select top-k, and return `(doc_ids, doc_scores)`. -/
def closestDocs (R : Ranker) (part : List ℚ → ℕ → List ℕ) (q : String)
    (meta : List String) (scale : ℚ) (k : ℕ) : Except RankErr (List ℕ × List ℚ) := do
  let spvec ← text2spvec R q
  let res := spMul spvec R.docMat
  let res ← applyBoosts R meta q scale res
  let sel := topK res part k
  return (sel.map Prod.fst, sel.map Prod.snd)

/-- `doc_scores((query, doc_idx), meta, meta_scale)`: vectorize, score, boost,
then read the row at exactly the caller-supplied positions
(`res[0, doc_idx].toarray()[0]`, an `IndexError` when a position is out of the
row's shape). -/
def docScores (R : Ranker) (q : String) (idxs : List ℕ) (meta : List String)
    (scale : ℚ) : Except RankErr (List ℚ) := do
  let spvec ← text2spvec R q
  let res := spMul spvec R.docMat
  let res ← applyBoosts R meta q scale res
  if idxs.all (· < R.matCols) then return idxs.map (valAt res) else throw .indexError

/-- `doc_meta(pmid_or_title)`: `doc_dict[2].get(key, {})` when the metadata map
was loaded (`len(doc_dict) >= 3`), the empty record otherwise. -/
def docMeta (R : Ranker) (pmid : String) : List (String × String) :=
  match R.docDict.metaMap with
  | some mm => (mm pmid).getD []
  | none => []

/-- The empty/default metadata record `{}`. -/
def emptyRec : List (String × String) := []

/-- `ThreadPool.map f xs`: the worker pool runs the independent tasks in an
arbitrary completion order `sched` and gathers each result back to its
submission position. `none` can appear only for a malformed schedule. -/
def poolMap {α β : Type} (f : α → β) (xs : List α) (sched : List ℕ) : List (Option β) :=
  let done := sched.filterMap fun i => (xs[i]?).map fun x => (i, f x)
  (List.range xs.length).map fun i => (done.find? fun r => r.1 == i).map Prod.snd

/-- `batch_closest_docs(queries, meta, meta_scale, k, num_workers)`. -/
def batchClosestDocs (R : Ranker) (part : List ℚ → ℕ → List ℕ) (queries : List String)
    (meta : List String) (scale : ℚ) (k : ℕ) (sched : List ℕ) :
    List (Option (Except RankErr (List ℕ × List ℚ))) :=
  poolMap (fun q => closestDocs R part q meta scale k) queries sched

/-- `batch_doc_scores(queries, doc_idxs, meta, meta_scale, num_workers)`; the
pool maps over `zip(queries, doc_idxs)`. -/
def batchDocScores (R : Ranker) (queries : List String) (idxss : List (List ℕ))
    (meta : List String) (scale : ℚ) (sched : List ℕ) :
    List (Option (Except RankErr (List ℚ))) :=
  poolMap (fun qi => docScores R qi.1 qi.2 meta scale) (queries.zip idxss) sched

/-- `batch_doc_meta(pmids, num_workers)`. -/
def batchDocMeta (R : Ranker) (pmids : List String) (sched : List ℕ) :
    List (Option (List (String × String))) :=
  poolMap (docMeta R) pmids sched

/-- The boost value source `m` contributes to document `d` for raw query `q`:
`boost_value * meta_scale` when `q` is a key listing `d`, else `0`. -/
def srcBoostAt (src : MetaSrc) (q : String) (scale : ℚ) (d : ℕ) : ℚ :=
  match src.pos q, src.boost q with
  | some ps, some bs => (((ps.zip bs).filter fun pb => pb.1 == d).map fun pb => pb.2 * scale).sum
  | _, _ => 0

/-- Total boost added to document `d` across the requested sources. -/
def totalBoost (tbl : String → Option MetaSrc) (meta : List String) (q : String)
    (scale : ℚ) (d : ℕ) : ℚ :=
  (meta.map fun m => match tbl m with | some src => srcBoostAt src q scale d | none => 0).sum

/-- All document positions the requested meta sources list for raw query `q`
(the only positions the boost block can make stored). -/
def boostedPos (R : Ranker) (meta : List String) (q : String) : List ℕ :=
  match R.docDict.metaSources with
  | none => []
  | some tbl =>
    (meta.map fun m => match tbl m with | some src => (src.pos q).getD [] | none => []).flatten

/-! Small concrete ranker instances used by the closed witness and
counterexample theorems. The abstract logarithm is instantiated with `x - 1`,
which agrees with the real `ln` on every fact used below (zero at `1`,
positive beyond `1`, strictly monotone). -/

/-- Meta source "covidex" of the sample index: raw query "q" boosts document 1
by 1. -/
def exSrc : MetaSrc where
  pos := fun s => if s = "q" then some [1] else none
  boost := fun s => if s = "q" then some [1] else none

/-- Sample `doc_dict` of length 4: two documents, a metadata record for "d0",
and the single meta source "covidex". -/
def exDict : DocDict where
  idToIdx := [("d0", 0), ("d1", 1)]
  idxToId := fun _ => ""
  metaMap := some fun s => if s = "d0" then some [("title", "doc zero")] else none
  metaSources := some fun m => if m = "covidex" then some exSrc else none

/-- Sample ranker: two documents, one stored matrix entry (term 0 in document 0
with weight 1), every token hashed to bucket 0. -/
def exRanker : Ranker where
  hashSize := 16
  strict := true
  docFreqs := fun _ => 0
  lg := fun x => x - 1
  normalize := fun s => s
  parse := fun s => [s]
  hashF := fun _ => 0
  docMat := [(0, 0, 1)]
  matCols := 2
  docDict := exDict

/-- Meta source keyed by the normalized query form "N" (not by the raw "q"). -/
def exSrcN : MetaSrc where
  pos := fun s => if s = "N" then some [0] else none
  boost := fun s => if s = "N" then some [7] else none

/-- Sample ranker whose normalizer rewrites every query to "N", with the meta
source table keyed by that normalized form. -/
def exRankerN : Ranker :=
  { exRanker with
    normalize := fun _ => "N"
    docDict := { exDict with
      metaSources := some fun m => if m = "covidex" then some exSrcN else none } }

/-- Meta source "neg" with a negative boost value for document 0. -/
def exSrcNeg : MetaSrc where
  pos := fun s => if s = "q" then some [0] else none
  boost := fun s => if s = "q" then some [-1] else none

/-- Sample ranker whose meta table carries the negative boost source "neg". -/
def exRankerNeg : Ranker :=
  { exRanker with
    docDict := { exDict with
      metaSources := some fun m => if m = "neg" then some exSrcNeg else none } }

/-- Sample ranker whose tokenizer finds no valid n-gram in any query. -/
def exRankerEmpty : Ranker := { exRanker with parse := fun _ => [] }

/-! ### Well-formedness of the loaded meta tables -/

/-- A meta source is well formed for query `q` and row width `cols` when any
positions entry for `q` is duplicate-free, in range, and paired with a boosts
entry of the same length; the offline pipeline guarantees this for loaded
indexes. -/
def SrcWf (src : MetaSrc) (q : String) (cols : ℕ) : Prop :=
  ∀ ps, src.pos q = some ps →
    ps.Nodup ∧ (∀ p ∈ ps, p < cols) ∧ ∃ bs, src.boost q = some bs ∧ bs.length = ps.length

/-- Every requested meta source name is present in the table and well formed. -/
def MetaWf (tbl : String → Option MetaSrc) (meta : List String) (q : String) (cols : ℕ) : Prop :=
  ∀ m ∈ meta, ∃ src, tbl m = some src ∧ SrcWf src q cols

/-! ### Association-row lemmas -/

theorem valAt_cons (e : ℕ × ℚ) (v : SpRow) (d : ℕ) :
    valAt (e :: v) d = (if e.1 = d then e.2 else 0) + valAt v d := by
  by_cases h : e.1 = d <;> simp [valAt, List.filter_cons, h]

theorem valAt_of_not_mem {v : SpRow} {d : ℕ} (h : d ∉ v.map Prod.fst) : valAt v d = 0 := by
  have hnil : v.filter (fun e => e.1 == d) = [] := by
    rw [List.filter_eq_nil_iff]
    intro e he hbe
    simp only [beq_iff_eq] at hbe
    exact h (List.mem_map.mpr ⟨e, he, hbe⟩)
  simp [valAt, hnil]

theorem valAt_map_key {s : List ℕ} (f : ℕ → ℚ) (hs : s.Nodup) (d : ℕ) :
    valAt (s.map fun i => (i, f i)) d = if d ∈ s then f d else 0 := by
  induction s with
  | nil => simp [valAt]
  | cons a t ih =>
    obtain ⟨ha, ht⟩ := List.nodup_cons.mp hs
    rw [List.map_cons, valAt_cons, ih ht]
    by_cases hd : a = d
    · subst hd
      have hz : (a ∈ t) = False := by simp [ha]
      simp [hz]
    · have hda : d ≠ a := fun h => hd h.symm
      simp [List.mem_cons, hd, hda]

/-- With duplicate-free keys, filtering an association list at a present key
yields exactly that entry. -/
theorem filter_key_singleton {β : Type} :
    ∀ {l : List (ℕ × β)}, (l.map Prod.fst).Nodup →
      ∀ {i : ℕ} {v : β}, (i, v) ∈ l → l.filter (fun e => e.1 == i) = [(i, v)] := by
  intro l
  induction l with
  | nil => intro _ i v hm; cases hm
  | cons e t ih =>
    intro hnd i v hm
    rw [List.map_cons] at hnd
    obtain ⟨ha, ht⟩ := List.nodup_cons.mp hnd
    rcases List.mem_cons.mp hm with he | hin
    · subst he
      have hfil : t.filter (fun x => x.1 == i) = [] := by
        rw [List.filter_eq_nil_iff]
        intro x hx hbx
        simp only [beq_iff_eq] at hbx
        exact ha (List.mem_map.mpr ⟨x, hx, hbx⟩)
      simp [List.filter_cons, hfil]
    · have hne : (e.1 == i) = false := by
        rw [beq_eq_false_iff_ne]
        intro hcontra
        exact ha (hcontra ▸ List.mem_map.mpr ⟨(i, v), hin, rfl⟩)
      simp only [List.filter_cons, hne, Bool.false_eq_true, if_false]
      exact ih ht hin

/-- With duplicate-free keys, "find the last occurrence" (sparse fancy
assignment) agrees with "sum all occurrences" (the boost contribution). -/
theorem findLast_eq_sum :
    ∀ {l : List (ℕ × ℚ)}, (l.map Prod.fst).Nodup → ∀ (d : ℕ),
      (match l.reverse.find? (fun pb => pb.1 == d) with
       | some pb => pb.2
       | none => (0 : ℚ)) = ((l.filter fun pb => pb.1 == d).map Prod.snd).sum := by
  intro l
  induction l with
  | nil => intro _ d; simp
  | cons e t ih =>
    intro hnd d
    rw [List.map_cons] at hnd
    obtain ⟨ha, ht⟩ := List.nodup_cons.mp hnd
    rw [List.reverse_cons, List.find?_append]
    by_cases he : e.1 = d
    · have hfind : t.reverse.find? (fun pb => pb.1 == d) = none := by
        rw [List.find?_eq_none]
        intro x hx hbx
        simp only [beq_iff_eq] at hbx
        exact ha (List.mem_map.mpr ⟨x, List.mem_reverse.mp hx, by rw [hbx, he]⟩)
      have hfilter : t.filter (fun pb => pb.1 == d) = [] := by
        rw [List.filter_eq_nil_iff]
        intro x hx hbx
        simp only [beq_iff_eq] at hbx
        exact ha (List.mem_map.mpr ⟨x, hx, by rw [hbx, he]⟩)
      simp [hfind, List.filter_cons, he, hfilter]
    · have heb : (e.1 == d) = false := by simpa using he
      have hone : [e].find? (fun pb => pb.1 == d) = none := by
        simp [List.find?, heb]
      cases hf : t.reverse.find? (fun pb => pb.1 == d) with
      | none =>
        have := ih ht d
        rw [hf] at this
        simp only [hf, Option.or_none, hone]
        simpa [List.filter_cons, he] using this
      | some pb =>
        have := ih ht d
        rw [hf] at this
        simp only [hf, Option.or]
        simpa [List.filter_cons, he] using this

/-! ### The boost block: characterization -/

theorem srcBoostAt_pos_none {src : MetaSrc} {q : String} (h : src.pos q = none)
    (scale : ℚ) (d : ℕ) : srcBoostAt src q scale d = 0 := by
  cases hb : src.boost q <;> simp [srcBoostAt, h, hb]

theorem srcBoostAt_eq {src : MetaSrc} {q : String} {ps : List ℕ} {bs : List ℚ}
    (hp : src.pos q = some ps) (hb : src.boost q = some bs) (scale : ℚ) (d : ℕ) :
    srcBoostAt src q scale d =
      (((ps.zip bs).filter fun pb => pb.1 == d).map fun pb => pb.2 * scale).sum := by
  simp [srcBoostAt, hp, hb]

theorem srcBoostAt_not_listed {src : MetaSrc} {q : String} {ps : List ℕ} {bs : List ℚ}
    (hp : src.pos q = some ps) (hb : src.boost q = some bs) (scale : ℚ) {d : ℕ}
    (hd : d ∉ ps) : srcBoostAt src q scale d = 0 := by
  rw [srcBoostAt_eq hp hb]
  have hnil : (ps.zip bs).filter (fun pb => pb.1 == d) = [] := by
    rw [List.filter_eq_nil_iff]
    intro pb hpb hbeq
    obtain ⟨p1, p2⟩ := pb
    simp only [beq_iff_eq] at hbeq
    exact hd (hbeq ▸ (List.of_mem_zip hpb).1)
  simp [hnil]

theorem boostStep_ok {tbl : String → Option MetaSrc} {q m : String} {src : MetaSrc}
    (hm : tbl m = some src) {cols : ℕ} (hwf : SrcWf src q cols) (scale : ℚ)
    (res : SpRow) :
    ∃ res', boostStep tbl q scale cols res m = .ok res' ∧
      (∀ d, valAt res' d = valAt res d + srcBoostAt src q scale d) ∧
      (∀ d ∈ res'.map Prod.fst, d ∈ res.map Prod.fst ∨ d ∈ (src.pos q).getD []) := by
  cases hp : src.pos q with
  | none =>
    refine ⟨res, by simp [boostStep, hm, hp], fun d => ?_, fun d hd => Or.inl hd⟩
    rw [srcBoostAt_pos_none hp, add_zero]
  | some ps =>
    obtain ⟨hnd, hrange, bs, hb, hlen⟩ := hwf ps hp
    have hall : ps.all (· < cols) = true := by
      rw [List.all_eq_true]; intro p hp'; simpa using hrange p hp'
    refine ⟨(List.insertionSort (· ≤ ·) ((res.map Prod.fst) ++ ps).dedup).map
      (fun d => (d,
        match (ps.zip (bs.map (· * scale))).reverse.find? (fun pb => pb.1 == d) with
        | some pb => valAt res d + pb.2
        | none => valAt res d)), ?_, ?_, ?_⟩
    · simp [boostStep, hm, hp, hb, hall]
    · intro d
      have hsnodup : (List.insertionSort (· ≤ ·) ((res.map Prod.fst) ++ ps).dedup).Nodup :=
        (List.perm_insertionSort _ _).symm.nodup (List.nodup_dedup _)
      rw [valAt_map_key _ hsnodup d]
      have hkeys : ((ps.zip (bs.map (· * scale))).map Prod.fst).Nodup := by
        rw [List.map_fst_zip]
        · exact hnd
        · simp [hlen]
      have hsum := findLast_eq_sum hkeys d
      have hzip : ps.zip (bs.map (· * scale)) =
          (ps.zip bs).map fun pb => (pb.1, pb.2 * scale) := by
        rw [List.zip_map_right]
        rfl
      have hboost : (match (ps.zip (bs.map (· * scale))).reverse.find?
            (fun pb => pb.1 == d) with
          | some pb => pb.2
          | none => (0 : ℚ)) = srcBoostAt src q scale d := by
        rw [hsum, srcBoostAt_eq hp hb, hzip, List.filter_map]
        have hcomp : ((fun pb : ℕ × ℚ => pb.1 == d) ∘ fun pb : ℕ × ℚ =>
            (pb.1, pb.2 * scale)) = fun pb : ℕ × ℚ => pb.1 == d := rfl
        rw [hcomp, List.map_map]
        rfl
      by_cases hmem : d ∈ List.insertionSort (· ≤ ·) ((res.map Prod.fst) ++ ps).dedup
      · rw [if_pos hmem, ← hboost]
        cases hf : (ps.zip (bs.map (· * scale))).reverse.find? (fun pb => pb.1 == d) <;>
          simp [hf]
      · rw [if_neg hmem]
        have hmem' : d ∉ res.map Prod.fst ∧ d ∉ ps := by
          constructor <;> intro hc <;> exact hmem (by
            rw [List.mem_insertionSort, List.mem_dedup, List.mem_append]
            first
              | exact Or.inl hc
              | exact Or.inr hc)
        rw [valAt_of_not_mem hmem'.1, srcBoostAt_not_listed hp hb scale hmem'.2]
        norm_num
    · intro d hd
      rw [List.map_map] at hd
      have : d ∈ List.insertionSort (· ≤ ·) ((res.map Prod.fst) ++ ps).dedup := by
        simpa using hd
      rw [List.mem_insertionSort, List.mem_dedup, List.mem_append] at this
      rcases this with h1 | h2
      · exact Or.inl h1
      · exact Or.inr (by simpa [hp] using h2)

theorem exceptBindOk {ε α β : Type} (a : α) (f : α → Except ε β) :
    (Except.ok a >>= f) = f a := rfl

theorem exceptBindErr {ε α β : Type} (e : ε) (f : α → Except ε β) :
    (Except.error e >>= f : Except ε β) = Except.error e := rfl

theorem totalBoost_cons (tbl : String → Option MetaSrc) (m : String) (meta : List String)
    (q : String) (scale : ℚ) (d : ℕ) :
    totalBoost tbl (m :: meta) q scale d =
      (match tbl m with | some src => srcBoostAt src q scale d | none => 0) +
        totalBoost tbl meta q scale d := by
  simp [totalBoost]

/-- Folding the boost loop over well-formed sources succeeds and adds exactly
`totalBoost` to every column's value. -/
theorem boost_foldlM_ok {tbl : String → Option MetaSrc} {q : String} {scale : ℚ}
    {cols : ℕ} :
    ∀ (meta : List String) (res : SpRow), MetaWf tbl meta q cols →
      ∃ res', meta.foldlM (boostStep tbl q scale cols) res = .ok res' ∧
        ∀ d, valAt res' d = valAt res d + totalBoost tbl meta q scale d
  | [], res, _ => ⟨res, rfl, fun d => by simp [totalBoost]⟩
  | m :: rest, res, hwf => by
    obtain ⟨src, hm, hsrc⟩ := hwf m (List.mem_cons_self m rest)
    obtain ⟨r1, hr1, hval1, _⟩ := boostStep_ok hm hsrc scale res
    obtain ⟨res', hres', hval'⟩ :=
      boost_foldlM_ok rest r1 (fun m' hm' => hwf m' (List.mem_cons_of_mem m hm'))
    refine ⟨res', ?_, ?_⟩
    · rw [List.foldlM_cons, hr1, exceptBindOk]
      exact hres'
    · intro d
      rw [hval' d, hval1 d, totalBoost_cons, hm]
      ring

theorem boostStep_support {tbl : String → Option MetaSrc} {q : String} {scale : ℚ}
    {cols : ℕ} {res res' : SpRow} {m : String}
    (h : boostStep tbl q scale cols res m = .ok res') :
    ∀ d ∈ res'.map Prod.fst, d ∈ res.map Prod.fst ∨
      ∃ src, tbl m = some src ∧ d ∈ (src.pos q).getD [] := by
  intro d hd
  unfold boostStep at h
  split at h
  · exact absurd h (by simp)
  · rename_i src htm
    split at h
    · obtain rfl : res = res' := Except.ok.inj h
      exact Or.inl hd
    · rename_i ps hp
      split at h
      · exact absurd h (by simp)
      · rename_i bs hb
        split at h
        · obtain rfl := Except.ok.inj h
          rw [List.map_map] at hd
          have hd' : d ∈ List.insertionSort (· ≤ ·) ((res.map Prod.fst) ++ ps).dedup := by
            simpa using hd
          rw [List.mem_insertionSort, List.mem_dedup, List.mem_append] at hd'
          rcases hd' with h1 | h2
          · exact Or.inl h1
          · exact Or.inr ⟨src, htm, by rw [hp]; exact h2⟩
        · exact absurd h (by simp)

theorem boost_foldlM_support {tbl : String → Option MetaSrc} {q : String} {scale : ℚ}
    {cols : ℕ} :
    ∀ (meta : List String) (res res' : SpRow),
      meta.foldlM (boostStep tbl q scale cols) res = .ok res' →
      ∀ d ∈ res'.map Prod.fst, d ∈ res.map Prod.fst ∨
        ∃ m ∈ meta, ∃ src, tbl m = some src ∧ d ∈ (src.pos q).getD []
  | [], res, res', h => by
    obtain rfl : res = res' := Except.ok.inj h
    exact fun d hd => Or.inl hd
  | m :: rest, res, res', h => by
    rw [List.foldlM_cons] at h
    cases hstep : boostStep tbl q scale cols res m with
    | error e => rw [hstep, exceptBindErr] at h; simp at h
    | ok r1 =>
      rw [hstep, exceptBindOk] at h
      intro d hd
      rcases boost_foldlM_support rest r1 res' h d hd with h1 | ⟨m', hm', src, hsrc, hmem⟩
      · rcases boostStep_support hstep d h1 with h2 | ⟨src, hsrc, hmem⟩
        · exact Or.inl h2
        · exact Or.inr ⟨m, List.mem_cons_self m rest, src, hsrc, hmem⟩
      · exact Or.inr ⟨m', List.mem_cons_of_mem m hm', src, hsrc, hmem⟩

/-- The total boost the ranking operations add to document `d`'s score: `0`
when no meta source table was loaded (`len(doc_dict) != 4`). -/
def boostOf (R : Ranker) (meta : List String) (q : String) (scale : ℚ) (d : ℕ) : ℚ :=
  match R.docDict.metaSources with
  | some tbl => totalBoost tbl meta q scale d
  | none => 0

/-- Every requested meta source is present and well formed in the loaded table,
whenever one was loaded at all. -/
def RankerMetaWf (R : Ranker) (meta : List String) (q : String) : Prop :=
  ∀ tbl, R.docDict.metaSources = some tbl → MetaWf tbl meta q R.matCols

theorem applyBoosts_ok {R : Ranker} {meta : List String} {q : String} (scale : ℚ)
    (hwf : RankerMetaWf R meta q) (res : SpRow) :
    ∃ res', applyBoosts R meta q scale res = .ok res' ∧
      ∀ d, valAt res' d = valAt res d + boostOf R meta q scale d := by
  unfold applyBoosts boostOf
  cases h4 : R.docDict.metaSources with
  | none => exact ⟨res, rfl, fun d => by simp⟩
  | some tbl => exact boost_foldlM_ok meta res (hwf tbl h4)

theorem applyBoosts_support {R : Ranker} {meta : List String} {q : String} {scale : ℚ}
    {res res' : SpRow} (h : applyBoosts R meta q scale res = .ok res') :
    ∀ d ∈ res'.map Prod.fst, d ∈ res.map Prod.fst ∨ d ∈ boostedPos R meta q := by
  unfold applyBoosts at h
  cases h4 : R.docDict.metaSources with
  | none =>
    rw [h4] at h
    obtain rfl : res = res' := Except.ok.inj h
    exact fun d hd => Or.inl hd
  | some tbl =>
    rw [h4] at h
    intro d hd
    rcases boost_foldlM_support meta res res' h d hd with h1 | ⟨m, hm, src, hsrc, hmem⟩
    · exact Or.inl h1
    · refine Or.inr ?_
      unfold boostedPos
      rw [h4, List.mem_flatten]
      exact ⟨_, List.mem_map.mpr ⟨m, hm, rfl⟩, by rw [hsrc]; exact hmem⟩

/-! ### The scored row -/

theorem hitDocs_nodup (v : SpRow) (M : List (ℕ × ℕ × ℚ)) : (hitDocs v M).Nodup :=
  (List.perm_insertionSort _ _).symm.nodup (List.nodup_dedup _)

theorem valAt_spMul (v : SpRow) (M : List (ℕ × ℕ × ℚ)) (d : ℕ) :
    valAt (spMul v M) d = if d ∈ hitDocs v M then dotCol v M d else 0 := by
  unfold spMul
  rw [valAt_map_key _ (hitDocs_nodup v M) d]

theorem dotCol_of_not_hit {v : SpRow} {M : List (ℕ × ℕ × ℚ)} {d : ℕ}
    (h : d ∉ hitDocs v M) : dotCol v M d = 0 := by
  unfold dotCol
  apply List.sum_eq_zero
  intro x hx
  obtain ⟨tx, htx, rfl⟩ := List.mem_map.mp hx
  have hmat : matVal M tx.1 d = 0 := by
    unfold matVal
    have hnil : M.filter (fun e => e.1 == tx.1 && e.2.1 == d) = [] := by
      rw [List.filter_eq_nil_iff]
      intro e he hbe
      simp only [Bool.and_eq_true, beq_iff_eq] at hbe
      apply h
      unfold hitDocs
      rw [List.mem_insertionSort, List.mem_dedup]
      refine List.mem_map.mpr ⟨e, List.mem_filter.mpr ⟨he, ?_⟩, hbe.2⟩
      have : e.1 ∈ v.map Prod.fst := hbe.1 ▸ List.mem_map.mpr ⟨tx, htx, rfl⟩
      simpa using this
    simp [hnil]
  rw [hmat, mul_zero]

/-- The value the scored row carries at `d` is exactly the dot product
(`0` off the structural support is also the dot product there). -/
theorem valAt_spMul_eq_dotCol (v : SpRow) (M : List (ℕ × ℕ × ℚ)) (d : ℕ) :
    valAt (spMul v M) d = dotCol v M d := by
  rw [valAt_spMul]
  by_cases hd : d ∈ hitDocs v M
  · rw [if_pos hd]
  · rw [if_neg hd, dotCol_of_not_hit hd]

/-! ### Sorting facts -/

theorem sortByScore_sorted (l : SpRow) : (sortByScore l).Sorted scoreGe :=
  List.sorted_insertionSort scoreGe l

theorem sortByScore_perm (l : SpRow) : (sortByScore l).Perm l :=
  List.perm_insertionSort scoreGe l

theorem scores_sorted (l : SpRow) : ((sortByScore l).map Prod.snd).Sorted geQ :=
  List.Pairwise.map Prod.snd (fun _ _ hab => hab) (sortByScore_sorted l)

/-- Sorted (under `geQ`) lists of rationals that are permutations of each other
are equal. -/
theorem geQ_sorted_unique {l₁ l₂ : List ℚ} (hp : l₁.Perm l₂) (h₁ : l₁.Sorted geQ)
    (h₂ : l₂.Sorted geQ) : l₁ = l₂ :=
  @List.eq_of_perm_of_sorted ℚ geQ _ _ _ hp h₁ h₂

theorem scores_sortByScore (l : SpRow) :
    (sortByScore l).map Prod.snd = List.insertionSort geQ (l.map Prod.snd) :=
  geQ_sorted_unique
    (((sortByScore_perm l).map Prod.snd).trans (List.perm_insertionSort geQ _).symm)
    (scores_sorted l) (List.sorted_insertionSort geQ _)

theorem insertionSort_append_of_dom {a b : List ℚ} (hd : ∀ x ∈ a, ∀ y ∈ b, y ≤ x) :
    List.insertionSort geQ (a ++ b) =
      List.insertionSort geQ a ++ List.insertionSort geQ b := by
  apply geQ_sorted_unique
  · exact (List.perm_insertionSort geQ _).trans
      (((List.perm_insertionSort geQ a).symm).append ((List.perm_insertionSort geQ b).symm))
  · exact List.sorted_insertionSort geQ _
  · rw [List.Sorted, List.pairwise_append]
    refine ⟨List.sorted_insertionSort geQ a, List.sorted_insertionSort geQ b, ?_⟩
    intro x hx y hy
    exact hd x (by simpa using hx) y (by simpa using hy)

/-! ### Indexing by positions -/

theorem range_filterMap_get {α : Type} (l : List α) :
    (List.range l.length).filterMap (fun i => l.get? i) = l := by
  induction l using List.reverseRecOn with
  | nil => simp
  | append_singleton t a ih =>
    have hlen : (t ++ [a]).length = t.length + 1 := by simp
    rw [hlen, List.range_succ, List.filterMap_append]
    have h1 : (List.range t.length).filterMap (fun i => (t ++ [a]).get? i)
        = (List.range t.length).filterMap (fun i => t.get? i) := by
      apply List.filterMap_congr
      intro i hi
      have hi' : i < t.length := List.mem_range.mp hi
      simp [List.getElem?_append_left hi']
    have h2 : ([t.length].filterMap fun i => (t ++ [a]).get? i) = [a] := by
      simp [List.getElem?_append_right (le_refl t.length)]
    rw [h1, h2, ih]

theorem filterMap_get_length {α : Type} (l : List α) :
    ∀ s : List ℕ, (∀ i ∈ s, i < l.length) →
      (s.filterMap fun i => l.get? i).length = s.length
  | [], _ => rfl
  | i :: t, h => by
    have hi : i < l.length := h i (List.mem_cons_self i t)
    have ih := filterMap_get_length l t (fun j hj => h j (List.mem_cons_of_mem i hj))
    have hg : l.get? i = some (l.get ⟨i, hi⟩) := by
      rw [List.get?_eq_getElem?]
      exact List.getElem?_eq_getElem hi
    simp only [List.filterMap_cons, hg, List.length_cons, ih]

theorem mem_of_filterMap_get {α : Type} {l : List α} {s : List ℕ} {x : α}
    (h : x ∈ s.filterMap fun i => l.get? i) : x ∈ l := by
  obtain ⟨i, _, hget⟩ := List.mem_filterMap.mp h
  rw [List.get?_eq_getElem?] at hget
  exact List.getElem?_mem hget

/-! ### Top-k selection -/

theorem topK_subset (res : SpRow) (part : List ℚ → ℕ → List ℕ) (k : ℕ) :
    ∀ e ∈ topK res part k, e ∈ res := by
  intro e he
  unfold topK at he
  split at he
  · exact (sortByScore_perm res).mem_iff.mp he
  · exact mem_of_filterMap_get ((sortByScore_perm _).mem_iff.mp he)

theorem topK_length_le (res : SpRow) (part : List ℚ → ℕ → List ℕ) (k : ℕ) :
    (topK res part k).length ≤ k := by
  unfold topK
  split
  · rename_i h
    calc (sortByScore res).length = res.length := (sortByScore_perm res).length_eq
    _ ≤ k := h
  · have h1 := List.length_filterMap_le (fun i => res.get? i)
      ((part (res.map Prod.snd) k).take k)
    have h2 : ((part (res.map Prod.snd) k).take k).length ≤ k := by
      rw [List.length_take]; exact min_le_left _ _
    calc (sortByScore _).length
        = (((part (res.map Prod.snd) k).take k).filterMap fun i => res.get? i).length :=
          (sortByScore_perm _).length_eq
    _ ≤ k := le_trans h1 h2

theorem topK_scores_sorted (res : SpRow) (part : List ℚ → ℕ → List ℕ) (k : ℕ) :
    ((topK res part k).map Prod.snd).Sorted geQ := by
  unfold topK
  split <;> exact scores_sorted _

/-- Any valid arg-partition selection yields the same descending score list as
fully sorting all candidates and keeping the first `k`. -/
theorem topK_scores_eq (res : SpRow) (part : List ℚ → ℕ → List ℕ) (k : ℕ)
    (hperm : (part (res.map Prod.snd) k).Perm (List.range res.length))
    (hdom : ∀ x ∈ ((part (res.map Prod.snd) k).take k).filterMap (fun i => res.get? i),
            ∀ y ∈ ((part (res.map Prod.snd) k).drop k).filterMap (fun i => res.get? i),
            y.2 ≤ x.2) :
    (topK res part k).map Prod.snd = ((sortByScore res).take k).map Prod.snd := by
  unfold topK
  split
  · rename_i h
    rw [List.take_of_length_le (by rw [(sortByScore_perm res).length_eq]; exact h)]
  · rename_i h
    push_neg at h
    set pp := part (res.map Prod.snd) k with hpp
    set A := (pp.take k).filterMap (fun i => res.get? i) with hA
    set B := (pp.drop k).filterMap (fun i => res.get? i) with hB
    have hAB : A ++ B = pp.filterMap (fun i => res.get? i) := by
      rw [hA, hB, ← List.filterMap_append, List.take_append_drop]
    have hres : (A ++ B).Perm res := by
      rw [hAB]
      have h1 : (pp.filterMap fun i => res.get? i).Perm
          ((List.range res.length).filterMap fun i => res.get? i) := hperm.filterMap _
      rw [range_filterMap_get res] at h1
      exact h1
    have hpplen : pp.length = res.length := by
      rw [hperm.length_eq, List.length_range]
    have hAlen : A.length = k := by
      rw [hA, filterMap_get_length]
      · rw [List.length_take, hpplen]
        exact min_eq_left (le_of_lt h)
      · intro i hi
        have hi' : i ∈ pp := List.mem_of_mem_take hi
        exact List.mem_range.mp (hperm.mem_iff.mp hi')
    have hdom' : ∀ x ∈ A.map Prod.snd, ∀ y ∈ B.map Prod.snd, y ≤ x := by
      intro x hx y hy
      obtain ⟨px, hpx, rfl⟩ := List.mem_map.mp hx
      obtain ⟨py, hpy, rfl⟩ := List.mem_map.mp hy
      exact hdom px hpx py hpy
    have hsplit : List.insertionSort geQ (res.map Prod.snd)
        = List.insertionSort geQ (A.map Prod.snd) ++ List.insertionSort geQ (B.map Prod.snd) := by
      rw [← insertionSort_append_of_dom hdom']
      apply geQ_sorted_unique
      · refine (List.perm_insertionSort geQ _).trans ?_
        refine List.Perm.trans ?_ (List.perm_insertionSort geQ _).symm
        rw [← List.map_append]
        exact (hres.map Prod.snd).symm
      · exact List.sorted_insertionSort geQ _
      · exact List.sorted_insertionSort geQ _
    have hsalen : (List.insertionSort geQ (A.map Prod.snd)).length = k := by
      rw [(List.perm_insertionSort geQ _).length_eq, List.length_map, hAlen]
    rw [scores_sortByScore A, List.map_take, scores_sortByScore res, hsplit, ← hsalen,
      List.take_left]

/-! ### The batch dispatcher -/

theorem poolKeys {α β : Type} (f : α → β) (xs : List α) :
    ∀ s : List ℕ,
      ((s.filterMap fun j => (xs[j]?).map fun x => (j, f x)).map Prod.fst)
        = s.filter fun j => (xs[j]?).isSome
  | [] => rfl
  | a :: t => by
    cases hg : xs[a]? <;>
      simp [List.filterMap_cons, hg, List.filter_cons, poolKeys f xs t]

theorem find?_assoc_of_nodup {β : Type} :
    ∀ {l : List (ℕ × β)}, (l.map Prod.fst).Nodup →
      ∀ {i : ℕ} {v : β}, (i, v) ∈ l → l.find? (fun r => r.1 == i) = some (i, v)
  | [], _, _, _, hm => by cases hm
  | e :: t, hnd, i, v, hm => by
    rw [List.map_cons] at hnd
    obtain ⟨ha, ht⟩ := List.nodup_cons.mp hnd
    rcases List.mem_cons.mp hm with he | hin
    · subst he
      simp [List.find?_cons]
    · have hne : (e.1 == i) = false := by
        rw [beq_eq_false_iff_ne]
        intro hc
        exact ha (hc ▸ List.mem_map.mpr ⟨(i, v), hin, rfl⟩)
      rw [List.find?_cons, hne]
      exact find?_assoc_of_nodup ht hin

/-- Whatever order the workers finish in, the pool's gather step returns each
task's result at its submission position. -/
theorem poolMap_eq {α β : Type} (f : α → β) (xs : List α) (sched : List ℕ)
    (h : sched.Perm (List.range xs.length)) :
    poolMap f xs sched = xs.map fun x => some (f x) := by
  unfold poolMap
  apply List.ext_getElem
  · simp
  · intro i h1 h2
    simp only [List.getElem_map, List.getElem_range]
    have hi : i < xs.length := by simpa using h1
    have hget : xs[i]? = some (xs.get ⟨i, hi⟩) := List.getElem?_eq_getElem hi
    have hmem : (i, f (xs.get ⟨i, hi⟩)) ∈
        sched.filterMap fun j => (xs[j]?).map fun x => (j, f x) := by
      rw [List.mem_filterMap]
      exact ⟨i, h.mem_iff.mpr (List.mem_range.mpr hi), by rw [hget]; rfl⟩
    have hkeys : ((sched.filterMap fun j => (xs[j]?).map fun x => (j, f x)).map
        Prod.fst).Nodup := by
      rw [poolKeys f xs sched]
      exact (h.symm.nodup (List.nodup_range _)).filter _
    rw [find?_assoc_of_nodup hkeys hmem]
    rfl

/-! ### Vectorizer facts -/

theorem idfOf_nonneg (R : Ranker) (t : ℕ) : 0 ≤ idfOf R t := by
  unfold idfOf
  split
  · exact le_refl 0
  · rename_i h
    exact le_of_not_lt h

/-- The code's `idfs[idfs < 0] = 0` clamp equals the spec's "clamped to 0 when
negative" phrasing `max 0 idf`. -/
theorem idfOf_eq_max (R : Ranker) (t : ℕ) :
    idfOf R t =
      max 0 (R.lg (((R.numDocs : ℚ) - R.docFreqs t + 1/2) / (R.docFreqs t + 1/2))) := by
  unfold idfOf
  split
  · rename_i h
    exact (max_eq_left (le_of_lt h)).symm
  · rename_i h
    exact (max_eq_right (le_of_not_lt h)).symm

theorem uniqueCounts_keys (l : List ℕ) :
    (uniqueCounts l).map Prod.fst = List.insertionSort (· ≤ ·) l.dedup := by
  unfold uniqueCounts
  have hcomp : (Prod.fst ∘ fun w => (w, l.count w)) = id := rfl
  rw [List.map_map, hcomp, List.map_id]

theorem uniqueCounts_keys_nodup (l : List ℕ) : ((uniqueCounts l).map Prod.fst).Nodup := by
  rw [uniqueCounts_keys]
  exact (List.perm_insertionSort _ _).symm.nodup (List.nodup_dedup _)

theorem mem_uniqueCounts_keys {l : List ℕ} {t : ℕ} :
    t ∈ (uniqueCounts l).map Prod.fst ↔ t ∈ l := by
  rw [uniqueCounts_keys, List.mem_insertionSort, List.mem_dedup]

/-! ### Pipeline-level helpers -/

theorem spMul_keys (v : SpRow) (M : List (ℕ × ℕ × ℚ)) :
    (spMul v M).map Prod.fst = hitDocs v M := by
  unfold spMul
  have hcomp : (Prod.fst ∘ fun d => (d, dotCol v M d)) = id := rfl
  rw [List.map_map, hcomp, List.map_id]

/-- `doc_scores` under a successful vectorization, well-formed requested meta
sources and in-range indices: the output is the dot product plus the boost, at
exactly the requested positions. -/
theorem docScores_ok (R : Ranker) (q : String) (idxs : List ℕ) (meta : List String)
    (scale : ℚ) {v : SpRow} (hv : text2spvec R q = .ok v)
    (hwf : RankerMetaWf R meta q) (hidx : ∀ i ∈ idxs, i < R.matCols) :
    docScores R q idxs meta scale =
      .ok (idxs.map fun d => dotCol v R.docMat d + boostOf R meta q scale d) := by
  obtain ⟨res', hres', hval⟩ := applyBoosts_ok scale hwf (spMul v R.docMat)
  unfold docScores
  rw [hv, exceptBindOk]
  dsimp only
  rw [hres', exceptBindOk]
  have hall : idxs.all (· < R.matCols) = true := by
    rw [List.all_eq_true]
    intro i hi
    simpa using hidx i hi
  rw [if_pos hall]
  have : idxs.map (valAt res') =
      idxs.map fun d => dotCol v R.docMat d + boostOf R meta q scale d := by
    apply List.map_congr_left
    intro d _
    rw [hval d, valAt_spMul_eq_dotCol]
  rw [this]
  rfl

/-- `closest_docs` under a successful vectorization and boost: the returned
pair lists are the projections of the selected `topK` pairs of the boosted
row. -/
theorem closestDocs_ok (R : Ranker) (part : List ℚ → ℕ → List ℕ) (q : String)
    (meta : List String) (scale : ℚ) (k : ℕ) {v : SpRow}
    (hv : text2spvec R q = .ok v) {res' : SpRow}
    (hb : applyBoosts R meta q scale (spMul v R.docMat) = .ok res') :
    closestDocs R part q meta scale k =
      .ok ((topK res' part k).map Prod.fst, (topK res' part k).map Prod.snd) := by
  unfold closestDocs
  rw [hv, exceptBindOk]
  dsimp only
  rw [hb, exceptBindOk]
  rfl

theorem srcBoostAt_scale (src : MetaSrc) (q : String) (scale : ℚ) (d : ℕ) :
    srcBoostAt src q scale d = srcBoostAt src q 1 d * scale := by
  cases hp : src.pos q with
  | none => rw [srcBoostAt_pos_none hp, srcBoostAt_pos_none hp, zero_mul]
  | some ps =>
    cases hb : src.boost q with
    | none => simp [srcBoostAt, hp, hb]
    | some bs =>
      rw [srcBoostAt_eq hp hb, srcBoostAt_eq hp hb]
      rw [← List.sum_map_mul_right]
      apply congrArg
      apply List.map_congr_left
      intro pb _
      rw [mul_one]

theorem srcBoostAt_unit_nonneg (src : MetaSrc) (q : String) (d : ℕ)
    (hb : ∀ bs, src.boost q = some bs → ∀ b ∈ bs, 0 ≤ b) :
    0 ≤ srcBoostAt src q 1 d := by
  cases hp : src.pos q with
  | none => rw [srcBoostAt_pos_none hp]
  | some ps =>
    cases hbq : src.boost q with
    | none => simp [srcBoostAt, hp, hbq]
    | some bs =>
      rw [srcBoostAt_eq hp hbq]
      apply List.sum_nonneg
      intro x hx
      obtain ⟨pb, hpb, rfl⟩ := List.mem_map.mp hx
      obtain ⟨p1, p2⟩ := pb
      have hmem := (List.of_mem_zip (List.mem_filter.mp hpb).1).2
      rw [mul_one]
      exact hb bs hbq p2 hmem

theorem totalBoost_scale (tbl : String → Option MetaSrc) (meta : List String)
    (q : String) (scale : ℚ) (d : ℕ) :
    totalBoost tbl meta q scale d = totalBoost tbl meta q 1 d * scale := by
  unfold totalBoost
  rw [← List.sum_map_mul_right]
  apply congrArg
  apply List.map_congr_left
  intro m _
  cases hm : tbl m with
  | none => rw [zero_mul]
  | some src => exact srcBoostAt_scale src q scale d

theorem totalBoost_unit_nonneg (tbl : String → Option MetaSrc) (meta : List String)
    (q : String) (d : ℕ)
    (hpos : ∀ m ∈ meta, ∀ src, tbl m = some src →
      ∀ bs, src.boost q = some bs → ∀ b ∈ bs, 0 ≤ b) :
    0 ≤ totalBoost tbl meta q 1 d := by
  unfold totalBoost
  apply List.sum_nonneg
  intro x hx
  obtain ⟨m, hm, rfl⟩ := List.mem_map.mp hx
  cases htm : tbl m with
  | none => exact le_refl 0
  | some src => exact srcBoostAt_unit_nonneg src q d (fun bs hbs => hpos m hm src htm bs hbs)

theorem forall₂_le_map_map {α : Type} (l : List α) (f g : α → ℚ)
    (h : ∀ x ∈ l, f x ≤ g x) :
    List.Forall₂ (· ≤ ·) (l.map f) (l.map g) := by
  induction l with
  | nil => exact List.Forall₂.nil
  | cons a t ih =>
    exact List.Forall₂.cons (h a (List.mem_cons_self a t))
      (ih fun x hx => h x (List.mem_cons_of_mem a hx))

/-- The boost loop reads the meta tables only at the raw query string: tables
agreeing there (and on which source names are present) produce identical
results. -/
theorem boost_foldlM_congr {q : String} {scale : ℚ} {cols : ℕ}
    {tbl tbl' : String → Option MetaSrc} :
    ∀ (meta : List String) (res : SpRow),
      (∀ m ∈ meta, (tbl m).isSome = (tbl' m).isSome ∧
        ∀ src src', tbl m = some src → tbl' m = some src' →
          src.pos q = src'.pos q ∧ src.boost q = src'.boost q) →
      meta.foldlM (boostStep tbl q scale cols) res =
        meta.foldlM (boostStep tbl' q scale cols) res
  | [], _, _ => rfl
  | m :: rest, res, hagree => by
    have hm := hagree m (List.mem_cons_self m rest)
    have hstep : boostStep tbl q scale cols res m = boostStep tbl' q scale cols res m := by
      cases h1 : tbl m with
      | none =>
        cases h2 : tbl' m with
        | none => simp [boostStep, h1, h2]
        | some s' => rw [h1, h2] at hm; simp at hm
      | some s =>
        cases h2 : tbl' m with
        | none => rw [h1, h2] at hm; simp at hm
        | some s' =>
          obtain ⟨hpos, hboost⟩ := hm.2 s s' h1 h2
          simp [boostStep, h1, h2, hpos, hboost]
    rw [List.foldlM_cons, List.foldlM_cons, hstep]
    cases hres : boostStep tbl' q scale cols res m with
    | error e => rfl
    | ok r =>
      rw [exceptBindOk, exceptBindOk]
      exact boost_foldlM_congr rest r
        (fun m' hm' => hagree m' (List.mem_cons_of_mem m hm'))

/-! ## Claim theorems -/

/-- C1: for every query whose n-gram extraction yields a non-empty multiset of
hashed bucket ids (the hash respecting its `[0, hash_size)` contract),
`text2spvec` returns a sparse row of dimension `hash_size` whose stored entries
sit exactly at the sorted unique bucket ids; the entry at bucket `t` with raw
count `c_t` is `tf_t * idf_t` with `tf_t = lg (1 + c_t)` and `idf_t` the
`lg ((N - df_t + 0.5) / (df_t + 0.5))` weight clamped to `0` when negative
(spelt `max 0 _`); every other coordinate is `0`; and the idf factor used is
never negative, even when `df_t > N`. -/
theorem c1_vectorize_weights (R : Ranker) (q : String)
    (hw : R.wids q ≠ []) (hh : ∀ w, R.hashF w < R.hashSize) :
    ∃ v : SpRow, text2spvec R q = .ok v ∧
      v.map Prod.fst = List.insertionSort (· ≤ ·) (R.wids q).dedup ∧
      (v.map Prod.fst).Nodup ∧
      (∀ e ∈ v, e.1 < R.hashSize) ∧
      (∀ t : ℕ, valAt v t =
        if t ∈ R.wids q then
          R.lg (1 + ((R.wids q).count t : ℚ)) *
            max 0 (R.lg (((R.numDocs : ℚ) - R.docFreqs t + 1/2) / (R.docFreqs t + 1/2)))
        else 0) ∧
      (∀ t : ℕ, 0 ≤ idfOf R t) := by
  have hne : ¬((R.wids q).isEmpty = true) := by
    rw [List.isEmpty_iff]
    exact hw
  have hv : text2spvec R q = .ok ((uniqueCounts (R.wids q)).map fun wc =>
      (wc.1, tfidfWeight R wc.1 wc.2)) := by
    simp only [text2spvec]
    rw [if_neg hne]
  have hkeys : (((uniqueCounts (R.wids q)).map fun wc =>
      (wc.1, tfidfWeight R wc.1 wc.2)).map Prod.fst)
      = (uniqueCounts (R.wids q)).map Prod.fst := by
    rw [List.map_map]
    rfl
  have hform : ((uniqueCounts (R.wids q)).map fun wc => (wc.1, tfidfWeight R wc.1 wc.2))
      = (List.insertionSort (· ≤ ·) (R.wids q).dedup).map
          (fun w => (w, tfidfWeight R w ((R.wids q).count w))) := by
    unfold uniqueCounts
    rw [List.map_map]
    rfl
  have hsnodup : (List.insertionSort (· ≤ ·) (R.wids q).dedup).Nodup :=
    (List.perm_insertionSort _ _).symm.nodup (List.nodup_dedup _)
  refine ⟨_, hv, ?_, ?_, ?_, ?_, fun t => idfOf_nonneg R t⟩
  · rw [hkeys, uniqueCounts_keys]
  · rw [hkeys]
    exact uniqueCounts_keys_nodup _
  · intro e he
    obtain ⟨wc, hwc, rfl⟩ := List.mem_map.mp he
    have h1 : wc.1 ∈ (uniqueCounts (R.wids q)).map Prod.fst :=
      List.mem_map.mpr ⟨wc, hwc, rfl⟩
    have h2 : wc.1 ∈ R.wids q := mem_uniqueCounts_keys.mp h1
    obtain ⟨w, _, hwEq⟩ := List.mem_map.mp h2
    rw [← hwEq]
    exact hh w
  · intro t
    rw [hform, valAt_map_key _ hsnodup t]
    simp only [List.mem_insertionSort, List.mem_dedup]
    by_cases ht : t ∈ R.wids q
    · rw [if_pos ht, if_pos ht]
      unfold tfidfWeight
      rw [idfOf_eq_max]
    · rw [if_neg ht, if_neg ht]

/-- C1 witness: the sample ranker's query "q" hashes to the single bucket `0`;
the theorem applies and in particular every idf factor is nonnegative. -/
theorem c1_witness :
    (exRanker.wids "q" ≠ []) ∧
    (∀ w, exRanker.hashF w < exRanker.hashSize) ∧
    (∃ v : SpRow, text2spvec exRanker "q" = .ok v ∧
      v.map Prod.fst = List.insertionSort (· ≤ ·) (exRanker.wids "q").dedup ∧
      (∀ t : ℕ, 0 ≤ idfOf exRanker t)) := by
  refine ⟨by decide, fun _ => by show (0 : ℕ) < 16; decide, ?_⟩
  obtain ⟨v, h1, h2, _, _, _, h6⟩ :=
    c1_vectorize_weights exRanker "q" (by decide) (fun _ => by show (0 : ℕ) < 16; decide)
  exact ⟨v, h1, h2, h6⟩

/-- C9: `doc_meta` returns the empty/default record when no metadata map was
loaded (`len(doc_dict) < 3`) or when the id is absent from it, and the id's
record when present; it never fails. -/
theorem c9_doc_meta (R : Ranker) (pmid : String) :
    (R.docDict.metaMap = none → docMeta R pmid = emptyRec) ∧
    (∀ mm, R.docDict.metaMap = some mm →
      (mm pmid = none → docMeta R pmid = emptyRec) ∧
      (∀ r, mm pmid = some r → docMeta R pmid = r)) := by
  constructor
  · intro h
    simp [docMeta, h, emptyRec]
  · intro mm h
    constructor
    · intro h2
      simp [docMeta, h, h2, emptyRec]
    · intro r h2
      simp [docMeta, h, h2]

/-- C9 witness: on the sample index, the present id "d0" resolves to its
record and the absent id "zz" resolves to the empty record. -/
theorem c9_witness :
    docMeta exRanker "d0" = [("title", "doc zero")] ∧ docMeta exRanker "zz" = emptyRec := by
  constructor
  · exact ((c9_doc_meta exRanker "d0").2 _ rfl).2 _ rfl
  · exact ((c9_doc_meta exRanker "zz").2 _ rfl).1 rfl

/-- C7: each batch operation returns, at every position, exactly the result of
the corresponding single-item operation on that position's input, for every
completion order of the worker pool (any permutation of the task indices). -/
theorem c7_batch_order (R : Ranker) (part : List ℚ → ℕ → List ℕ)
    (meta : List String) (scale : ℚ) (k : ℕ) :
    (∀ (queries : List String) (sched : List ℕ),
      sched.Perm (List.range queries.length) →
      batchClosestDocs R part queries meta scale k sched =
        queries.map fun q => some (closestDocs R part q meta scale k)) ∧
    (∀ (queries : List String) (idxss : List (List ℕ)) (sched : List ℕ),
      sched.Perm (List.range (queries.zip idxss).length) →
      batchDocScores R queries idxss meta scale sched =
        (queries.zip idxss).map fun qi => some (docScores R qi.1 qi.2 meta scale)) ∧
    (∀ (pmids : List String) (sched : List ℕ),
      sched.Perm (List.range pmids.length) →
      batchDocMeta R pmids sched = pmids.map fun p => some (docMeta R p)) :=
  ⟨fun qs sched h => poolMap_eq _ qs sched h,
   fun qs idxss sched h => poolMap_eq _ (qs.zip idxss) sched h,
   fun pmids sched h => poolMap_eq _ pmids sched h⟩

/-- C7 witness: a two-element batch executed in reversed completion order still
returns the per-item results in submission order. -/
theorem c7_witness :
    ([1, 0] : List ℕ).Perm (List.range (["d0", "zz"] : List String).length) ∧
    batchDocMeta exRanker ["d0", "zz"] [1, 0] =
      (["d0", "zz"] : List String).map fun p => some (docMeta exRanker p) := by
  refine ⟨by decide, ?_⟩
  exact (c7_batch_order exRanker (fun _ _ => []) [] 1 1).2.2 ["d0", "zz"] [1, 0] (by decide)

/-- C10: the lexical scoring path normalizes the query before tokenizing and
hashing (`wids` is computed from `parse (normalize q)`), while the meta-boost
lookup keys on the raw query string: a source whose positions table has no
entry at the raw query applies no boost even if it has one at the normalized
form, and the boost block's behavior depends on the tables only through their
entries at the raw query. -/
theorem c10_raw_vs_normalized (R : Ranker) (q : String) (_hne : R.normalize q ≠ q) :
    (R.wids q = (R.parse (R.normalize q)).map R.hashF) ∧
    (∀ (tbl : String → Option MetaSrc) (scale : ℚ) (res : SpRow) (m : String)
        (src : MetaSrc), R.docDict.metaSources = some tbl → tbl m = some src →
      src.pos q = none → boostStep tbl q scale R.matCols res m = .ok res) ∧
    (∀ (tbl tbl' : String → Option MetaSrc) (meta : List String) (scale : ℚ)
        (res : SpRow) (cols : ℕ),
      (∀ m ∈ meta, (tbl m).isSome = (tbl' m).isSome ∧
        ∀ src src', tbl m = some src → tbl' m = some src' →
          src.pos q = src'.pos q ∧ src.boost q = src'.boost q) →
      meta.foldlM (boostStep tbl q scale cols) res =
        meta.foldlM (boostStep tbl' q scale cols) res) := by
  refine ⟨rfl, ?_, ?_⟩
  · intro tbl scale res m src _ htm hnokey
    simp [boostStep, htm, hnokey]
  · intro tbl tbl' meta scale res cols hagree
    exact boost_foldlM_congr meta res hagree

/-- C10 witness: the sample ranker normalizes "q" to "N"; its meta source is
keyed only by "N", so no boost applies to the raw query "q". -/
theorem c10_witness :
    exRankerN.normalize "q" ≠ "q" ∧
    exSrcN.pos "N" = some [0] ∧ exSrcN.pos "q" = none ∧
    boostStep (fun m => if m = "covidex" then some exSrcN else none) "q" 1
      exRankerN.matCols [(0, 4)] "covidex" = .ok [(0, 4)] := by
  refine ⟨by decide, rfl, rfl, ?_⟩
  exact (c10_raw_vs_normalized exRankerN "q" (by decide)).2.1
    (fun m => if m = "covidex" then some exSrcN else none) 1 [(0, 4)] "covidex" exSrcN
    rfl rfl rfl

/-- The vectorizer's only failure mode: an error is always the Empty-Query
error, raised exactly under `strict` with an empty hashed-ngram list. -/
theorem text2spvec_error {R : Ranker} {q : String} {e : RankErr}
    (he : text2spvec R q = .error e) :
    e = .emptyQuery q ∧ R.strict = true ∧ R.wids q = [] := by
  by_cases hwe : R.wids q = []
  · by_cases hs : R.strict = true
    · simp only [text2spvec, hwe, List.isEmpty_nil, if_true, hs] at he
      exact ⟨(Except.error.inj he).symm, hs, hwe⟩
    · rw [Bool.not_eq_true] at hs
      simp [text2spvec, hwe, hs] at he
  · have hne : (R.wids q).isEmpty = false := by
      cases hq : R.wids q with
      | nil => exact absurd hq hwe
      | cons a t => rfl
    simp [text2spvec, hne] at he

/-- C3 (amended): with an empty hashed-ngram list, strict mode raises the
Empty-Query error (which propagates unchanged through `closest_docs` and
`doc_scores`), and non-strict mode returns the all-zero sparse row and logs a
warning; an Empty-Query error is the vectorizer's only failure mode, and it is
the only failure path of `closest_docs`/`doc_scores` PROVIDED every requested
meta source is present and well formed and (for `doc_scores`) the requested
indices are in range — a requested source name absent from the table is a
`KeyError` instead (see the counterexample), which is what forces the
amendment. -/
theorem c3_empty_query (R : Ranker) (q : String) :
    (R.strict = true → R.wids q = [] → text2spvec R q = .error (.emptyQuery q)) ∧
    (R.strict = false → R.wids q = [] →
      text2spvec R q = .ok [] ∧ (∀ t, valAt ([] : SpRow) t = 0) ∧
      text2spvecWarnings R q = ["No valid word in: " ++ q]) ∧
    (∀ e, text2spvec R q = .error e →
      e = .emptyQuery q ∧ R.strict = true ∧ R.wids q = []) ∧
    (R.strict = true → R.wids q = [] →
      ∀ (part : List ℚ → ℕ → List ℕ) (meta : List String) (scale : ℚ) (k : ℕ)
        (idxs : List ℕ),
      closestDocs R part q meta scale k = .error (.emptyQuery q) ∧
      docScores R q idxs meta scale = .error (.emptyQuery q)) ∧
    (∀ (part : List ℚ → ℕ → List ℕ) (meta : List String) (scale : ℚ) (k : ℕ)
        (e : RankErr), RankerMetaWf R meta q →
      closestDocs R part q meta scale k = .error e → e = .emptyQuery q) ∧
    (∀ (meta : List String) (scale : ℚ) (idxs : List ℕ) (e : RankErr),
      RankerMetaWf R meta q → (∀ i ∈ idxs, i < R.matCols) →
      docScores R q idxs meta scale = .error e → e = .emptyQuery q) := by
  refine ⟨?_, ?_, fun e he => text2spvec_error he, ?_, ?_, ?_⟩
  · intro hs hwe
    simp [text2spvec, hwe, hs]
  · intro hs hwe
    refine ⟨by simp [text2spvec, hwe, hs], fun t => by simp [valAt], ?_⟩
    simp [text2spvecWarnings, hwe, hs]
  · intro hs hwe part meta scale k idxs
    have herr : text2spvec R q = .error (.emptyQuery q) := by
      simp [text2spvec, hwe, hs]
    constructor
    · unfold closestDocs
      rw [herr, exceptBindErr]
    · unfold docScores
      rw [herr, exceptBindErr]
  · intro part meta scale k e hwf he
    cases ht : text2spvec R q with
    | error e' =>
      unfold closestDocs at he
      rw [ht, exceptBindErr] at he
      obtain rfl := Except.error.inj he
      exact (text2spvec_error ht).1
    | ok v =>
      unfold closestDocs at he
      rw [ht, exceptBindOk] at he
      dsimp only at he
      obtain ⟨res', hres', _⟩ := applyBoosts_ok scale hwf (spMul v R.docMat)
      rw [hres', exceptBindOk] at he
      simp [pure, Except.pure] at he
  · intro meta scale idxs e hwf hidx he
    cases ht : text2spvec R q with
    | error e' =>
      unfold docScores at he
      rw [ht, exceptBindErr] at he
      obtain rfl := Except.error.inj he
      exact (text2spvec_error ht).1
    | ok v =>
      unfold docScores at he
      rw [ht, exceptBindOk] at he
      dsimp only at he
      obtain ⟨res', hres', _⟩ := applyBoosts_ok scale hwf (spMul v R.docMat)
      rw [hres', exceptBindOk] at he
      have hall : idxs.all (· < R.matCols) = true := by
        rw [List.all_eq_true]
        intro i hi
        simpa using hidx i hi
      rw [if_pos hall] at he
      simp [pure, Except.pure] at he

/-- C3 counterexample: the Empty-Query error is not the only failure path of
`closest_docs`: with a requested meta source name absent from the loaded table
the call fails with a `KeyError` even though vectorization succeeded. -/
theorem c3_counterexample :
    closestDocs exRanker (fun _ _ => []) "q" ["nope"] 1 2 = .error (.keyError "nope") ∧
    text2spvec exRanker "q" = .ok [(0, 4)] ∧
    RankErr.keyError "nope" ≠ RankErr.emptyQuery "q" := by
  refine ⟨?_, ?_, by decide⟩
  · norm_num +decide [closestDocs, text2spvec, Ranker.wids, uniqueCounts, tfidfWeight,
      idfOf, Ranker.numDocs, spMul, hitDocs, dotCol, matVal, applyBoosts, boostStep,
      valAt, topK, sortByScore, scoreGe, exRanker, exDict, exSrc, List.foldlM,
      Except.bind, Bind.bind, pure, Except.pure]
  · norm_num [text2spvec, Ranker.wids, uniqueCounts, tfidfWeight, idfOf, Ranker.numDocs,
      exRanker, exDict]

/-- C3 witness: on the sample ranker whose tokenizer yields no n-grams, strict
mode raises the Empty-Query error and non-strict mode degrades to the all-zero
row plus a logged warning. -/
theorem c3_witness :
    text2spvec exRankerEmpty "q" = .error (.emptyQuery "q") ∧
    text2spvec { exRankerEmpty with strict := false } "q" = .ok [] ∧
    text2spvecWarnings { exRankerEmpty with strict := false } "q" =
      ["No valid word in: " ++ "q"] := by
  refine ⟨(c3_empty_query exRankerEmpty "q").1 rfl (by decide), ?_, ?_⟩
  · exact ((c3_empty_query { exRankerEmpty with strict := false } "q").2.1 rfl
      (by decide)).1
  · exact ((c3_empty_query { exRankerEmpty with strict := false } "q").2.1 rfl
      (by decide)).2.2

/-- C4 (amended): when every requested meta source name is present in the
table and well formed, the boost block succeeds and adds exactly the boosts to
the score row: each listed document position `ps[i]` gains `bs[i] * meta_scale`
from each source listing it, while documents not listed for the query's key and
queries that are no key at all contribute `0` (scores unchanged). A requested
source name absent from the table instead fails the whole call with a
`KeyError` rather than leaving scores unchanged (see the counterexample),
which is what forces the amendment. -/
theorem c4_meta_boost (R : Ranker) (tbl : String → Option MetaSrc)
    (h4 : R.docDict.metaSources = some tbl) (meta : List String) (q : String)
    (scale : ℚ) (hwf : MetaWf tbl meta q R.matCols) (res : SpRow) :
    ∃ res', applyBoosts R meta q scale res = .ok res' ∧
      (∀ d, valAt res' d = valAt res d + totalBoost tbl meta q scale d) ∧
      (∀ m ∈ meta, ∀ src ps bs, tbl m = some src → src.pos q = some ps →
        src.boost q = some bs →
        ∀ i, ∀ (hi : i < ps.length) (hib : i < bs.length),
          srcBoostAt src q scale (ps.get ⟨i, hi⟩) = bs.get ⟨i, hib⟩ * scale) ∧
      (∀ d, (∀ m ∈ meta, ∀ src, tbl m = some src → d ∉ (src.pos q).getD []) →
        totalBoost tbl meta q scale d = 0) := by
  obtain ⟨res', h1, h2⟩ := boost_foldlM_ok meta res hwf
  refine ⟨res', ?_, h2, ?_, ?_⟩
  · unfold applyBoosts
    rw [h4]
    exact h1
  · intro m hm src ps bs htm hps hbs i hi hib
    obtain ⟨src', htm', hwf'⟩ := hwf m hm
    rw [htm] at htm'
    obtain rfl := Option.some.inj htm'
    obtain ⟨hnd, _, bs', hbs', hlen⟩ := hwf' ps hps
    rw [hbs] at hbs'
    obtain rfl := Option.some.inj hbs'
    rw [srcBoostAt_eq hps hbs]
    have hkeys : ((ps.zip bs).map Prod.fst).Nodup := by
      rw [List.map_fst_zip]
      · exact hnd
      · rw [hlen]
    have hzl : i < (ps.zip bs).length := by
      rw [List.length_zip]
      exact lt_min hi hib
    have hget : (ps.zip bs).get ⟨i, hzl⟩ = (ps.get ⟨i, hi⟩, bs.get ⟨i, hib⟩) := by
      simp [List.getElem_zip]
    have hmem : (ps.get ⟨i, hi⟩, bs.get ⟨i, hib⟩) ∈ ps.zip bs := by
      rw [← hget]
      exact List.get_mem _ _ _
    rw [filter_key_singleton hkeys hmem]
    simp
  · intro d hd
    unfold totalBoost
    apply List.sum_eq_zero
    intro x hx
    obtain ⟨m, hm, rfl⟩ := List.mem_map.mp hx
    cases htm : tbl m with
    | none => rfl
    | some src =>
      show srcBoostAt src q scale d = 0
      have hnot := hd m hm src htm
      cases hps : src.pos q with
      | none => exact srcBoostAt_pos_none hps scale d
      | some ps =>
        obtain ⟨src', htm', hwf'⟩ := hwf m hm
        rw [htm] at htm'
        obtain rfl := Option.some.inj htm'
        obtain ⟨_, _, bs, hbs, _⟩ := hwf' ps hps
        rw [hps] at hnot
        exact srcBoostAt_not_listed hps hbs scale (by simpa using hnot)

/-- C4 counterexample: a requested source name that is not in the table does
not leave the scores unchanged — the call fails with a `KeyError` (with no
sources requested the same call returns the unchanged score `4`). -/
theorem c4_counterexample :
    docScores exRanker "q" [0] ["missing"] 1 = .error (.keyError "missing") ∧
    docScores exRanker "q" [0] [] 1 = .ok [4] := by
  constructor <;>
    norm_num +decide [docScores, text2spvec, Ranker.wids, uniqueCounts, tfidfWeight,
      idfOf, Ranker.numDocs, spMul, hitDocs, dotCol, matVal, applyBoosts, boostStep,
      valAt, exRanker, exDict, exSrc, List.foldlM, Except.bind, Bind.bind, pure,
      Except.pure]

/-- The sample index's meta table is well formed for query "q". -/
theorem exMetaWf : MetaWf (fun m => if m = "covidex" then some exSrc else none)
    ["covidex"] "q" 2 := by
  intro m hm
  rw [List.mem_singleton] at hm
  subst hm
  refine ⟨exSrc, rfl, ?_⟩
  intro ps hps
  have hps' : ps = [1] := by
    have h1 : (some [1] : Option (List ℕ)) = some ps := by rw [← hps]; rfl
    exact (Option.some.inj h1).symm
  subst hps'
  exact ⟨by decide, by decide, [1], rfl, rfl⟩

/-- C4 witness: on the sample index, the boost block succeeds and every
column's value equals the raw value plus the total boost. -/
theorem c4_witness :
    ∃ res', applyBoosts exRanker ["covidex"] "q" 1 [(0, 4)] = .ok res' ∧
      ∀ d, valAt res' d = valAt [(0, 4)] d +
        totalBoost (fun m => if m = "covidex" then some exSrc else none)
          ["covidex"] "q" 1 d := by
  obtain ⟨res', h1, h2, _, _⟩ :=
    c4_meta_boost exRanker (fun m => if m = "covidex" then some exSrc else none) rfl
      ["covidex"] "q" 1 exMetaWf [(0, 4)]
  exact ⟨res', h1, h2⟩

/-- C5 (amended): under a successful vectorization, well-formed requested meta
sources and in-range indices, `doc_scores` returns exactly `len(idxs)` numbers,
the i-th being the boosted score (dot product plus boost) of the document at
`idxs[i]`, in the caller's requested order — `0` for documents that share no
hashed feature with the query AND receive no meta boost. (As stated the claim
is false: a boosted document with no shared feature scores nonzero, see the
counterexample.) -/
theorem c5_doc_scores (R : Ranker) (q : String) (idxs : List ℕ) (meta : List String)
    (scale : ℚ) {v : SpRow} (hv : text2spvec R q = .ok v)
    (hwf : RankerMetaWf R meta q) (hidx : ∀ i ∈ idxs, i < R.matCols) :
    ∃ sc, docScores R q idxs meta scale = .ok sc ∧
      sc = idxs.map (fun d => dotCol v R.docMat d + boostOf R meta q scale d) ∧
      sc.length = idxs.length ∧
      (∀ d ∈ idxs, d ∉ hitDocs v R.docMat → boostOf R meta q scale d = 0 →
        dotCol v R.docMat d + boostOf R meta q scale d = 0) := by
  refine ⟨_, docScores_ok R q idxs meta scale hv hwf hidx, rfl,
    by rw [List.length_map], ?_⟩
  intro d _ hnot hb0
  rw [dotCol_of_not_hit hnot, hb0, add_zero]

/-- C5 counterexample: document 1 shares no hashed feature with the query (it
is not a structural hit of the dot product), yet `doc_scores` returns `1` for
it, because the meta boost applies — refuting "including 0 for indices whose
documents share no hashed feature with the query". -/
theorem c5_counterexample :
    docScores exRanker "q" [1] ["covidex"] 1 = .ok [1] ∧
    text2spvec exRanker "q" = .ok [(0, 4)] ∧
    (1 : ℕ) ∉ hitDocs [(0, 4)] exRanker.docMat ∧ (1 : ℚ) ≠ 0 := by
  refine ⟨?_, ?_, by decide, by decide⟩
  · norm_num [docScores, text2spvec, Ranker.wids, uniqueCounts, tfidfWeight, idfOf,
      Ranker.numDocs, spMul, hitDocs, dotCol, matVal, applyBoosts, boostStep, valAt,
      exRanker, exDict, exSrc, List.foldlM, Except.bind, Bind.bind, pure, Except.pure]
  · norm_num [text2spvec, Ranker.wids, uniqueCounts, tfidfWeight, idfOf, Ranker.numDocs,
      exRanker, exDict]

/-- The sample ranker's loaded table (when read back out of the `Option`) is
well formed for query "q". -/
theorem exRankerMetaWf : RankerMetaWf exRanker ["covidex"] "q" := by
  intro tbl htbl
  have h1 : (some (fun m => if m = "covidex" then some exSrc else none) :
      Option (String → Option MetaSrc)) = some tbl := by
    rw [← htbl]
    rfl
  obtain rfl := Option.some.inj h1
  exact exMetaWf

/-- C5 witness: on the sample index, both requested positions come back, in
order, as dot product plus boost. -/
theorem c5_witness :
    ∃ sc, docScores exRanker "q" [0, 1] ["covidex"] 1 = .ok sc ∧
      sc = [0, 1].map (fun d => dotCol [(0, 4)] exRanker.docMat d +
        boostOf exRanker ["covidex"] "q" 1 d) ∧
      sc.length = 2 := by
  have hv : text2spvec exRanker "q" = .ok [(0, 4)] := by
    norm_num [text2spvec, Ranker.wids, uniqueCounts, tfidfWeight, idfOf, Ranker.numDocs,
      exRanker, exDict]
  obtain ⟨sc, h1, h2, h3, _⟩ :=
    c5_doc_scores exRanker "q" [0, 1] ["covidex"] 1 hv exRankerMetaWf (by decide)
  exact ⟨sc, h1, h2, h3⟩

/-- C2 (amended): under a successful vectorization, `closest_docs` returns at
most `k` results in descending score order, and every returned document either
shares at least one stored hashed feature with the query row or is listed as a
boosted position for the raw query by a requested meta source. (As stated the
claim is false: a returned document's dot product can be `0` — a meta boost can
create its candidate entry — see the counterexample.) -/
theorem c2_closest_docs_shape (R : Ranker) (part : List ℚ → ℕ → List ℕ)
    (q : String) (meta : List String) (scale : ℚ) (k : ℕ) {v : SpRow}
    (hv : text2spvec R q = .ok v) {ids : List ℕ} {scores : List ℚ}
    (h : closestDocs R part q meta scale k = .ok (ids, scores)) :
    ids.length ≤ k ∧ scores.length ≤ k ∧ scores.Sorted geQ ∧
      ∀ d ∈ ids, d ∈ hitDocs v R.docMat ∨ d ∈ boostedPos R meta q := by
  unfold closestDocs at h
  rw [hv, exceptBindOk] at h
  dsimp only at h
  cases hb : applyBoosts R meta q scale (spMul v R.docMat) with
  | error e =>
    rw [hb, exceptBindErr] at h
    simp at h
  | ok res' =>
    rw [hb, exceptBindOk] at h
    have hpair : ((topK res' part k).map Prod.fst, (topK res' part k).map Prod.snd)
        = (ids, scores) := Except.ok.inj h
    injection hpair with h1 h2
    subst h1
    subst h2
    refine ⟨?_, ?_, topK_scores_sorted res' part k, ?_⟩
    · rw [List.length_map]
      exact topK_length_le res' part k
    · rw [List.length_map]
      exact topK_length_le res' part k
    · intro d hd
      obtain ⟨e, he, rfl⟩ := List.mem_map.mp hd
      have hin : e ∈ res' := topK_subset res' part k e he
      have hkey : e.1 ∈ res'.map Prod.fst := List.mem_map.mpr ⟨e, hin, rfl⟩
      rcases applyBoosts_support hb e.1 hkey with h1 | h2
      · rw [spMul_keys] at h1
        exact Or.inl h1
      · exact Or.inr h2

/-- C2 counterexample: `closest_docs` returns document 1 even though its dot
product with the query vector is `0` (it shares no stored feature; the meta
boost made it a candidate), so the returned set is not contained in the
documents with nonzero dot product. -/
theorem c2_counterexample :
    closestDocs exRanker (fun _ _ => []) "q" ["covidex"] 1 2 = .ok ([0, 1], [4, 1]) ∧
    text2spvec exRanker "q" = .ok [(0, 4)] ∧
    dotCol [(0, 4)] exRanker.docMat 1 = 0 := by
  refine ⟨?_, ?_, ?_⟩
  · norm_num [closestDocs, text2spvec, Ranker.wids, uniqueCounts, tfidfWeight, idfOf,
      Ranker.numDocs, spMul, hitDocs, dotCol, matVal, applyBoosts, boostStep, valAt,
      topK, sortByScore, scoreGe, exRanker, exDict, exSrc, List.foldlM, Except.bind,
      Bind.bind, pure, Except.pure]
  · norm_num [text2spvec, Ranker.wids, uniqueCounts, tfidfWeight, idfOf, Ranker.numDocs,
      exRanker, exDict]
  · norm_num [dotCol, matVal, exRanker]

/-- C2 witness: the amended shape theorem applied to the sample call. -/
theorem c2_witness :
    text2spvec exRanker "q" = .ok [(0, 4)] ∧
    closestDocs exRanker (fun _ _ => []) "q" ["covidex"] 1 2 = .ok ([0, 1], [4, 1]) ∧
    ([0, 1] : List ℕ).length ≤ 2 ∧ ([4, 1] : List ℚ).Sorted geQ ∧
    ∀ d ∈ ([0, 1] : List ℕ), d ∈ hitDocs [(0, 4)] exRanker.docMat ∨
      d ∈ boostedPos exRanker ["covidex"] "q" := by
  have h1 : text2spvec exRanker "q" = .ok [(0, 4)] := by
    norm_num [text2spvec, Ranker.wids, uniqueCounts, tfidfWeight, idfOf, Ranker.numDocs,
      exRanker, exDict]
  have h2 : closestDocs exRanker (fun _ _ => []) "q" ["covidex"] 1 2 =
      .ok ([0, 1], [4, 1]) := by
    norm_num [closestDocs, text2spvec, Ranker.wids, uniqueCounts, tfidfWeight, idfOf,
      Ranker.numDocs, spMul, hitDocs, dotCol, matVal, applyBoosts, boostStep, valAt,
      topK, sortByScore, scoreGe, exRanker, exDict, exSrc, List.foldlM, Except.bind,
      Bind.bind, pure, Except.pure]
  have h3 := c2_closest_docs_shape exRanker (fun _ _ => []) "q" ["covidex"] 1 2 h1 h2
  exact ⟨h1, h2, h3.1, h3.2.2.1, h3.2.2.2⟩

/-- C6: when the stored candidate count is at most `k` the code fully sorts
all candidates; otherwise any valid arg-partition pass (a permutation of the
row's positions whose first `k` carry the `k` largest scores) followed by
sorting only that subset yields exactly the same descending score list as the
spec-side "fully sort all candidates, keep the first k" — the selected
(doc, score) multiset agrees up to ties at the k-th score, and every selected
pair is a stored candidate. -/
theorem c6_topk_equiv (res : SpRow) (part : List ℚ → ℕ → List ℕ) (k : ℕ)
    (hperm : (part (res.map Prod.snd) k).Perm (List.range res.length))
    (hdom : ∀ x ∈ ((part (res.map Prod.snd) k).take k).filterMap (fun i => res.get? i),
            ∀ y ∈ ((part (res.map Prod.snd) k).drop k).filterMap (fun i => res.get? i),
            y.2 ≤ x.2) :
    (res.length ≤ k → topK res part k = sortByScore res) ∧
    (topK res part k).map Prod.snd = (specTopK res k).map Prod.snd ∧
    (∀ e ∈ topK res part k, e ∈ res) := by
  refine ⟨?_, ?_, topK_subset res part k⟩
  · intro h
    unfold topK
    rw [if_pos h]
  · unfold specTopK
    exact topK_scores_eq res part k hperm hdom

/-- C6 witness: a three-candidate row with `k = 1` and the concrete partition
`[0, 2, 1]` (position 0 carries the largest score) selects the same score list
as a full sort. -/
theorem c6_witness :
    ((fun _ _ => [0, 2, 1] : List ℚ → ℕ → List ℕ)
        (([(0, (3:ℚ)), (1, 1), (2, 2)] : SpRow).map Prod.snd) 1).Perm
      (List.range ([(0, (3:ℚ)), (1, 1), (2, 2)] : SpRow).length) ∧
    (topK [(0, 3), (1, 1), (2, 2)] (fun _ _ => [0, 2, 1]) 1).map Prod.snd =
      (specTopK [(0, 3), (1, 1), (2, 2)] 1).map Prod.snd := by
  refine ⟨by decide, ?_⟩
  exact (c6_topk_equiv [(0, 3), (1, 1), (2, 2)] (fun _ _ => [0, 2, 1]) 1 (by decide)
    (by decide)).2.1

/-- C8 (amended): holding the query, index contents and meta sources fixed,
with well-formed tables whose boost values for the raw query are nonnegative,
increasing `meta_scale` never decreases any document's boosted score — on the
total boost, on the boosted score row shared by `closest_docs` and
`doc_scores`, and elementwise on the `doc_scores` output. (Without the
nonnegativity assumption the claim is false on the code, see the
counterexample.) -/
theorem c8_meta_scale_mono (R : Ranker) (tbl : String → Option MetaSrc)
    (h4 : R.docDict.metaSources = some tbl) (meta : List String) (q : String)
    {s s' : ℚ} (hs : s ≤ s') (hwf : MetaWf tbl meta q R.matCols)
    (hpos : ∀ m ∈ meta, ∀ src, tbl m = some src →
      ∀ bs, src.boost q = some bs → ∀ b ∈ bs, 0 ≤ b)
    (idxs : List ℕ) (hidx : ∀ i ∈ idxs, i < R.matCols)
    {v : SpRow} (hv : text2spvec R q = .ok v) :
    (∀ d, totalBoost tbl meta q s d ≤ totalBoost tbl meta q s' d) ∧
    (∀ res r r', applyBoosts R meta q s res = .ok r →
      applyBoosts R meta q s' res = .ok r' → ∀ d, valAt r d ≤ valAt r' d) ∧
    ∃ sc sc', docScores R q idxs meta s = .ok sc ∧
      docScores R q idxs meta s' = .ok sc' ∧ List.Forall₂ (· ≤ ·) sc sc' := by
  have hmono : ∀ d, totalBoost tbl meta q s d ≤ totalBoost tbl meta q s' d := by
    intro d
    rw [totalBoost_scale tbl meta q s d, totalBoost_scale tbl meta q s' d]
    exact mul_le_mul_of_nonneg_left hs (totalBoost_unit_nonneg tbl meta q d hpos)
  have hwfr : RankerMetaWf R meta q := by
    intro tbl' htbl'
    rw [h4] at htbl'
    obtain rfl := Option.some.inj htbl'
    exact hwf
  have hboostOf : ∀ scale d, boostOf R meta q scale d = totalBoost tbl meta q scale d := by
    intro scale d
    unfold boostOf
    rw [h4]
  refine ⟨hmono, ?_, ?_⟩
  · intro res r r' hr hr'
    obtain ⟨r1, hr1, hval1⟩ := applyBoosts_ok s hwfr res
    obtain ⟨r2, hr2, hval2⟩ := applyBoosts_ok s' hwfr res
    rw [hr] at hr1
    obtain rfl := Except.ok.inj hr1
    rw [hr'] at hr2
    obtain rfl := Except.ok.inj hr2
    intro d
    rw [hval1 d, hval2 d, hboostOf, hboostOf]
    exact add_le_add_left (hmono d) _
  · refine ⟨_, _, docScores_ok R q idxs meta s hv hwfr hidx,
      docScores_ok R q idxs meta s' hv hwfr hidx, ?_⟩
    apply forall₂_le_map_map
    intro d _
    rw [hboostOf, hboostOf]
    exact add_le_add_left (hmono d) _

/-- C8 counterexample: with a negative boost value in the table, increasing
`meta_scale` from `0` to `1` decreases the boosted document's score from `4`
to `3` — refuting unrestricted monotonicity. -/
theorem c8_counterexample :
    docScores exRankerNeg "q" [0] ["neg"] 0 = .ok [4] ∧
    docScores exRankerNeg "q" [0] ["neg"] 1 = .ok [3] ∧
    (0 : ℚ) ≤ 1 ∧ (3 : ℚ) < 4 := by
  refine ⟨?_, ?_, by decide, by decide⟩ <;>
    norm_num [docScores, text2spvec, Ranker.wids, uniqueCounts, tfidfWeight, idfOf,
      Ranker.numDocs, spMul, hitDocs, dotCol, matVal, applyBoosts, boostStep, valAt,
      exRankerNeg, exRanker, exDict, exSrcNeg, List.foldlM, Except.bind, Bind.bind,
      pure, Except.pure]

/-- C8 witness: with the sample index's nonnegative boost, raising the scale
from 0 to 1 never decreases any requested document's score. -/
theorem c8_witness :
    ∃ sc sc', docScores exRanker "q" [0, 1] ["covidex"] 0 = .ok sc ∧
      docScores exRanker "q" [0, 1] ["covidex"] 1 = .ok sc' ∧
      List.Forall₂ (· ≤ ·) sc sc' := by
  have hv : text2spvec exRanker "q" = .ok [(0, 4)] := by
    norm_num [text2spvec, Ranker.wids, uniqueCounts, tfidfWeight, idfOf, Ranker.numDocs,
      exRanker, exDict]
  have hpos : ∀ m ∈ (["covidex"] : List String), ∀ src : MetaSrc,
      (fun m => if m = "covidex" then some exSrc else none) m = some src →
      ∀ bs, src.boost "q" = some bs → ∀ b ∈ bs, 0 ≤ b := by
    intro m hm src hsrc bs hbs b hb
    rw [List.mem_singleton] at hm
    subst hm
    have h1 : (some exSrc : Option MetaSrc) = some src := by
      rw [← hsrc]
      rfl
    obtain rfl := Option.some.inj h1
    have h2 : (some [(1 : ℚ)] : Option (List ℚ)) = some bs := by
      rw [← hbs]
      rfl
    obtain rfl := Option.some.inj h2
    rw [List.mem_singleton] at hb
    subst hb
    decide
  obtain ⟨_, _, h⟩ := c8_meta_scale_mono exRanker
    (fun m => if m = "covidex" then some exSrc else none) rfl ["covidex"] "q"
    (by decide : (0 : ℚ) ≤ 1) exMetaWf hpos [0, 1] (by decide) hv
  exact h

end CovidAsk
